import Mathlib

/-!
# Verification of the BoolPySearch core search engine

A shallow embedding of the core of `BoolPySearch.py`: the tokenizer
(`preprocess`), the document loader (`load_documents_from_folder`), the
inverted-index builder (`create_inverted_index`) and the three boolean
retrieval operators (`boolean_and_search`, `boolean_or_search`,
`boolean_not_search`), together with proofs of their specification
properties.

Modelling conventions:
* A Python `dict` is an insertion-ordered association list; the inverted
  index, a `defaultdict(set)`, is a `List (String × Finset String)` whose
  bracket lookup `d[k]` inserts `(k, ∅)` at the end when `k` is missing
  (`ddGet` below), exactly as `defaultdict.__getitem__` does.
* Python `set` values are `Finset String`.
* The search functions use `d[k]` lookups on the defaultdict, so they are
  embedded state-passing style: each returns its result set together with
  the (possibly grown) index.
* `re.findall(r'\b\w+\b', text)` extracts the maximal runs of word
  characters of `text`; `\w` is modelled by its ASCII fragment
  (letters, digits, underscore), and Python's `str.lower` by the
  character-wise ASCII `Char.toLower`.
-/

namespace BoolPySearch

/-- Document identifiers: in the reference system, source filenames. -/
abbrev Doc := String

/-- An inverted index: a Python `defaultdict(set)` mapping terms to posting
sets, modelled as an insertion-ordered association list. -/
abbrev Index := List (String × Finset Doc)

/-- The module-level stopword set of `BoolPySearch.py` (line 15). -/
def stopwords : List String :=
  ["a", "an", "the", "is", "in", "of", "for", "and", "to", "on", "by",
   "that", "it", "from", "this", "with", "as", "at", "are", "was", "were",
   "has", "have", "had", "be", "been", "but", "or", "not", "which",
   "will", "through"]

/-- ASCII model of the regex word-character class `\w`: letters, digits and
the underscore (code points 65–90, 97–122, 48–57 and 95). -/
def isWordChar (c : Char) : Bool :=
  decide ((65 ≤ c.toNat ∧ c.toNat ≤ 90) ∨ (97 ≤ c.toNat ∧ c.toNat ≤ 122) ∨
    (48 ≤ c.toNat ∧ c.toNat ≤ 57) ∨ c.toNat = 95)

/-- Scanner for `re.findall(r'\b\w+\b', ·)`: walks the character list once,
accumulating the current run of word characters (in reverse) and emitting it
at each separator, exactly as the regex engine reports the maximal runs. -/
def findallWords : List Char → List Char → List String
  | [], acc => if acc.isEmpty then [] else [String.mk acc.reverse]
  | c :: cs, acc =>
    if isWordChar c then findallWords cs (c :: acc)
    else if acc.isEmpty then findallWords cs []
    else String.mk acc.reverse :: findallWords cs []

/-- `preprocess(text)` (lines 17–26): lowercase the text, extract the word
tokens, and drop the stopwords. -/
def preprocess (text : String) : List String :=
  (findallWords (text.data.map Char.toLower) []).filter
    (fun token => !(stopwords.contains token))

/-- Plain `dict` lookup (no default insertion), for association lists. -/
def dictFind {α : Type} : List (String × α) → String → Option α
  | [], _ => none
  | (k, v) :: rest, t => if k = t then some v else dictFind rest t

/-- `defaultdict(set)` bracket lookup `d[term]`: return the stored posting
set, or insert the term with an empty posting set (at the end, as Python
dicts append new keys) and return the empty set. -/
def ddGet (d : Index) (term : String) : Finset Doc × Index :=
  match dictFind d term with
  | some v => (v, d)
  | none => (∅, d ++ [(term, ∅)])

/-- `inverted_index[token].add(doc_id)`: add `d` to the posting set of `t`,
inserting the term at the end of the dict when it is new. -/
def addPosting : Index → String → Doc → Index
  | [], t, d => [(t, {d})]
  | (k, v) :: rest, t, d =>
    if k = t then (k, insert d v) :: rest else (k, v) :: addPosting rest t d

/-- `create_inverted_index(documents)` (lines 47–60): for each document in
order, tokenize its content and add its id to the posting set of each token. -/
def create_inverted_index (documents : List (Doc × String)) : Index :=
  documents.foldl
    (fun inverted_index p =>
      (preprocess p.2).foldl (fun idx token => addPosting idx token p.1) inverted_index)
    []

/-- `boolean_and_search(query, inverted_index)` (lines 62–69): start from the
posting set of the first term and intersect with each later term's posting
set; returns the result and the index (grown by the defaultdict lookups). -/
def boolean_and_search (query : String) (inverted_index : Index) :
    Finset Doc × Index :=
  match preprocess query with
  | [] => (∅, inverted_index)
  | t :: ts =>
    ts.foldl
      (fun acc term =>
        let p := ddGet acc.2 term
        (acc.1 ∩ p.1, p.2))
      (ddGet inverted_index t)

/-- `boolean_or_search(query, inverted_index)` (lines 71–78): start from the
empty set and union in each term's posting set. -/
def boolean_or_search (query : String) (inverted_index : Index) :
    Finset Doc × Index :=
  match preprocess query with
  | [] => (∅, inverted_index)
  | t :: ts =>
    (t :: ts).foldl
      (fun acc term =>
        let p := ddGet acc.2 term
        (acc.1 ∪ p.1, p.2))
      (∅, inverted_index)

/-- `boolean_not_search(query, inverted_index, all_docs)` (lines 80–87):
start from a copy of `all_docs` and remove each term's posting set. -/
def boolean_not_search (query : String) (inverted_index : Index)
    (all_docs : Finset Doc) : Finset Doc × Index :=
  match preprocess query with
  | [] => (∅, inverted_index)
  | t :: ts =>
    (t :: ts).foldl
      (fun acc term =>
        let p := ddGet acc.2 term
        (acc.1 \ p.1, p.2))
      (all_docs, inverted_index)

/-- `load_documents_from_folder(folder_path)` (lines 28–45).  The filesystem
interaction is abstracted into the argument: either the enumeration and
reading of the folder succeeds, yielding the `(filename, content)` pairs in
listing order, or some step raises an exception carrying a message.  On
success the `.txt` files are kept; on any exception the function shows an
error dialog (display only — nothing is returned to the caller besides the
dict) and returns the empty dict. -/
def load_documents_from_folder
    (listing : Except String (List (Doc × String))) : List (Doc × String) :=
  match listing with
  | .error _ => []
  | .ok files => files.filter (fun f => f.1.endsWith ".txt")

/-- The pure posting-set view of an index: the stored set, or `∅` for a
missing term (no insertion). -/
def postingSet (d : Index) (term : String) : Finset Doc :=
  (dictFind d term).getD ∅

/-! ## Lookup lemmas: the defaultdict lookup returns the pure posting set
and only ever grows the index by empty entries, so it never changes any
posting set. -/

theorem ddGet_fst (d : Index) (t : String) : (ddGet d t).1 = postingSet d t := by
  rw [ddGet, postingSet]
  cases dictFind d t <;> rfl

theorem postingSet_append_empty (d : Index) (t s : String) :
    postingSet (d ++ [(t, ∅)]) s = postingSet d s := by
  induction d with
  | nil =>
    by_cases h : t = s <;> simp [postingSet, dictFind, h]
  | cons kv rest ih =>
    obtain ⟨k, v⟩ := kv
    by_cases h : k = s
    · simp [postingSet, dictFind, h]
    · simp only [postingSet, dictFind, List.cons_append, if_neg h] at ih ⊢
      exact ih

theorem postingSet_ddGet_snd (d : Index) (t s : String) :
    postingSet (ddGet d t).2 s = postingSet d s := by
  rw [ddGet]
  cases dictFind d t with
  | none => exact postingSet_append_empty d t s
  | some v => rfl

/-! ## Value lemmas for the three search folds: threading the growing
defaultdict through the fold computes the same result set as the pure fold
over posting sets of the original index. -/

theorem andFold_fst (ts : List String) (d : Index) :
    ∀ p : Finset Doc × Index, (∀ s, postingSet p.2 s = postingSet d s) →
      (ts.foldl (fun acc term =>
        let q := ddGet acc.2 term
        (acc.1 ∩ q.1, q.2)) p).1
        = ts.foldl (fun r term => r ∩ postingSet d term) p.1 := by
  induction ts with
  | nil => intro p _; rfl
  | cons t ts ih =>
    intro p hp
    simp only [List.foldl_cons]
    rw [ih ((p.1 ∩ (ddGet p.2 t).1, (ddGet p.2 t).2))
      (fun s => (postingSet_ddGet_snd p.2 t s).trans (hp s))]
    rw [ddGet_fst, hp t]

theorem orFold_fst (ts : List String) (d : Index) :
    ∀ p : Finset Doc × Index, (∀ s, postingSet p.2 s = postingSet d s) →
      (ts.foldl (fun acc term =>
        let q := ddGet acc.2 term
        (acc.1 ∪ q.1, q.2)) p).1
        = ts.foldl (fun r term => r ∪ postingSet d term) p.1 := by
  induction ts with
  | nil => intro p _; rfl
  | cons t ts ih =>
    intro p hp
    simp only [List.foldl_cons]
    rw [ih ((p.1 ∪ (ddGet p.2 t).1, (ddGet p.2 t).2))
      (fun s => (postingSet_ddGet_snd p.2 t s).trans (hp s))]
    rw [ddGet_fst, hp t]

theorem sdiffFold_fst (ts : List String) (d : Index) :
    ∀ p : Finset Doc × Index, (∀ s, postingSet p.2 s = postingSet d s) →
      (ts.foldl (fun acc term =>
        let q := ddGet acc.2 term
        (acc.1 \ q.1, q.2)) p).1
        = ts.foldl (fun r term => r \ postingSet d term) p.1 := by
  induction ts with
  | nil => intro p _; rfl
  | cons t ts ih =>
    intro p hp
    simp only [List.foldl_cons]
    rw [ih ((p.1 \ (ddGet p.2 t).1, (ddGet p.2 t).2))
      (fun s => (postingSet_ddGet_snd p.2 t s).trans (hp s))]
    rw [ddGet_fst, hp t]

theorem boolean_and_search_fst (q : String) (d : Index) (t : String)
    (ts : List String) (h : preprocess q = t :: ts) :
    (boolean_and_search q d).1
      = ts.foldl (fun r term => r ∩ postingSet d term) (postingSet d t) := by
  unfold boolean_and_search
  rw [h]
  rw [andFold_fst ts d (ddGet d t) (fun s => postingSet_ddGet_snd d t s), ddGet_fst]

theorem boolean_or_search_fst (q : String) (d : Index) (t : String)
    (ts : List String) (h : preprocess q = t :: ts) :
    (boolean_or_search q d).1
      = (t :: ts).foldl (fun r term => r ∪ postingSet d term) ∅ := by
  unfold boolean_or_search
  rw [h]
  exact orFold_fst (t :: ts) d (∅, d) (fun _ => rfl)

theorem boolean_not_search_fst (q : String) (d : Index) (u : Finset Doc)
    (t : String) (ts : List String) (h : preprocess q = t :: ts) :
    (boolean_not_search q d u).1
      = (t :: ts).foldl (fun r term => r \ postingSet d term) u := by
  unfold boolean_not_search
  rw [h]
  exact sdiffFold_fst (t :: ts) d (u, d) (fun _ => rfl)

/-! ## Pure set-algebra lemmas about the folds. -/

theorem foldl_inter_subset (ps : String → Finset Doc) (l : List String) :
    ∀ r : Finset Doc, l.foldl (fun r term => r ∩ ps term) r ⊆ r := by
  induction l with
  | nil => intro r; exact Finset.Subset.refl r
  | cons t ts ih =>
    intro r
    exact (ih (r ∩ ps t)).trans Finset.inter_subset_left

theorem foldl_inter_subset_of_mem (ps : String → Finset Doc) (l : List String)
    (term : String) (hterm : term ∈ l) :
    ∀ r : Finset Doc, l.foldl (fun r term => r ∩ ps term) r ⊆ ps term := by
  induction l with
  | nil => cases hterm
  | cons t ts ih =>
    intro r
    rcases List.mem_cons.mp hterm with h | h
    · subst h
      exact (foldl_inter_subset ps ts (r ∩ ps term)).trans Finset.inter_subset_right
    · exact ih h (r ∩ ps t)

theorem foldl_sdiff_subset (ps : String → Finset Doc) (l : List String) :
    ∀ u : Finset Doc, l.foldl (fun r term => r \ ps term) u ⊆ u := by
  induction l with
  | nil => intro u; exact Finset.Subset.refl u
  | cons t ts ih =>
    intro u
    exact (ih (u \ ps t)).trans (Finset.sdiff_subset)

theorem foldl_sdiff_eq_sdiff_foldl_union (ps : String → Finset Doc)
    (l : List String) :
    ∀ u a : Finset Doc,
      l.foldl (fun r term => r \ ps term) (u \ a)
        = u \ l.foldl (fun r term => r ∪ ps term) a := by
  induction l with
  | nil => intro u a; rfl
  | cons t ts ih =>
    intro u a
    simp only [List.foldl_cons]
    have h1 : (u \ a) \ ps t = u \ (a ∪ ps t) := by
      ext x
      simp only [Finset.mem_sdiff, Finset.mem_union]
      tauto
    rw [h1, ih u (a ∪ ps t)]

/-! ## Index-builder lemmas: what `create_inverted_index` puts in each
posting set. -/

theorem postingSet_addPosting (d : Index) (t : String) (x : Doc) (s : String) :
    postingSet (addPosting d t x) s
      = if s = t then insert x (postingSet d t) else postingSet d s := by
  induction d with
  | nil =>
    by_cases h : s = t
    · subst h; simp [addPosting, postingSet, dictFind]
    · have h' : ¬ t = s := fun heq => h heq.symm
      simp [addPosting, postingSet, dictFind, h, h']
  | cons kv rest ih =>
    obtain ⟨k, v⟩ := kv
    by_cases hk : k = t
    · subst hk
      by_cases hs : s = k
      · subst hs
        simp [addPosting, postingSet, dictFind]
      · have hs' : ¬ k = s := fun heq => hs heq.symm
        simp [addPosting, postingSet, dictFind, hs, hs']
    · by_cases hs : k = s
      · subst hs
        simp [addPosting, postingSet, dictFind, hk]
      · simp only [addPosting, if_neg hk]
        have lhs : postingSet ((k, v) :: addPosting rest t x) s
            = postingSet (addPosting rest t x) s := by
          simp [postingSet, dictFind, hs]
        have rhs1 : postingSet ((k, v) :: rest) s = postingSet rest s := by
          simp [postingSet, dictFind, hs]
        have rhs2 : postingSet ((k, v) :: rest) t = postingSet rest t := by
          simp [postingSet, dictFind, hk]
        rw [lhs, rhs1, rhs2, ih]


theorem mem_postingSet_addPosting (d : Index) (t : String) (x : Doc)
    (D : Doc) (s : String) :
    D ∈ postingSet (addPosting d t x) s ↔
      (D = x ∧ s = t) ∨ D ∈ postingSet d s := by
  rw [postingSet_addPosting]
  by_cases h : s = t
  · subst h
    simp [Finset.mem_insert]
  · simp [h]

theorem mem_postingSet_tokensFoldl (tokens : List String) (x : Doc)
    (D : Doc) (T : String) :
    ∀ d : Index,
      D ∈ postingSet (tokens.foldl (fun idx token => addPosting idx token x) d) T ↔
        (D = x ∧ T ∈ tokens) ∨ D ∈ postingSet d T := by
  induction tokens with
  | nil => intro d; simp
  | cons tok toks ih =>
    intro d
    simp only [List.foldl_cons]
    rw [ih (addPosting d tok x), mem_postingSet_addPosting]
    simp only [List.mem_cons]
    tauto

theorem mem_postingSet_docsFoldl (docs : List (Doc × String)) (D : Doc)
    (T : String) :
    ∀ d : Index,
      D ∈ postingSet (docs.foldl (fun inverted_index p =>
          (preprocess p.2).foldl (fun idx token => addPosting idx token p.1)
            inverted_index) d) T ↔
        (∃ c, (D, c) ∈ docs ∧ T ∈ preprocess c) ∨ D ∈ postingSet d T := by
  induction docs with
  | nil => intro d; simp
  | cons p ps ih =>
    intro d
    simp only [List.foldl_cons]
    rw [ih _, mem_postingSet_tokensFoldl]
    constructor
    · rintro (⟨c, hc, hT⟩ | ⟨⟨hD, hT⟩ | hmem⟩)
      · exact Or.inl ⟨c, List.mem_cons_of_mem p hc, hT⟩
      · refine Or.inl ⟨p.2, ?_, hT⟩
        rw [hD]
        exact List.mem_cons_self p ps
      · exact Or.inr hmem
    · rintro (⟨c, hc, hT⟩ | hmem)
      · rcases List.mem_cons.mp hc with heq | hmem2
        · have hD : D = p.1 := congrArg Prod.fst heq
          have hc2 : c = p.2 := congrArg Prod.snd heq
          exact Or.inr (Or.inl ⟨hD, hc2 ▸ hT⟩)
        · exact Or.inl ⟨c, hmem2, hT⟩
      · exact Or.inr (Or.inr hmem)

theorem dictFind_eq_some_iff {α : Type} : ∀ (l : List (String × α)),
    (l.map Prod.fst).Nodup → ∀ (k : String) (v : α),
      (dictFind l k = some v ↔ (k, v) ∈ l)
  | [], _, k, v => by simp [dictFind]
  | (a, b) :: rest, hnd, k, v => by
    simp only [List.map_cons, List.nodup_cons] at hnd
    obtain ⟨ha, hrest⟩ := hnd
    by_cases h : a = k
    · subst h
      rw [show dictFind ((a, b) :: rest) a = some b from by simp [dictFind]]
      simp only [List.mem_cons, Option.some.injEq, Prod.mk.injEq, true_and]
      constructor
      · intro hv
        exact Or.inl hv.symm
      · rintro (heq | hmem)
        · exact heq.symm
        · exact absurd (List.mem_map_of_mem Prod.fst hmem) ha
    · simp only [dictFind, if_neg h, dictFind_eq_some_iff rest hrest k v,
        List.mem_cons, Prod.mk.injEq]
      constructor
      · exact Or.inr
      · rintro (⟨hk, _⟩ | hmem)
        · exact absurd hk.symm h
        · exact hmem


/-! ## Tokenizer lemmas: the `findallWords` scanner computes exactly the
maximal runs of word characters, and ASCII lowercasing commutes with run
extraction. -/

/-- Specification-side description of `re.findall(r'\b\w+\b', ·)`: the
maximal runs of word characters of the input, in input order.  At a word
character, the run is the longest word-character prefix from that position;
everything else is a separator. -/
def maximalRuns : List Char → List (List Char)
  | [] => []
  | c :: cs =>
    if isWordChar c then
      (c :: cs.takeWhile isWordChar) :: maximalRuns (cs.dropWhile isWordChar)
    else
      maximalRuns cs
termination_by l => l.length
decreasing_by
  · have := (cs.dropWhile_sublist isWordChar).length_le
    simp only [List.length_cons]
    omega
  · simp

theorem findallWords_acc (cs : List Char) :
    ∀ acc : List Char, acc ≠ [] →
      findallWords cs acc
        = String.mk (acc.reverse ++ cs.takeWhile isWordChar)
            :: findallWords (cs.dropWhile isWordChar) [] := by
  induction cs with
  | nil =>
    intro acc hacc
    simp [findallWords, List.isEmpty_iff, hacc]
  | cons c cs ih =>
    intro acc hacc
    by_cases h : isWordChar c
    · rw [show findallWords (c :: cs) acc = findallWords cs (c :: acc) from by
        simp [findallWords, h]]
      rw [ih (c :: acc) (List.cons_ne_nil c acc)]
      simp [h, List.takeWhile_cons, List.dropWhile_cons]
    · rw [show findallWords (c :: cs) acc
          = String.mk acc.reverse :: findallWords cs [] from by
        simp [findallWords, h, List.isEmpty_iff, hacc]]
      simp [List.takeWhile_cons, List.dropWhile_cons, h, findallWords]

theorem findallWords_eq_maximalRuns : (l : List Char) →
    findallWords l [] = (maximalRuns l).map (fun r => String.mk r)
  | [] => by simp [findallWords, maximalRuns]
  | c :: cs => by
    by_cases h : isWordChar c
    · rw [show findallWords (c :: cs) [] = findallWords cs [c] from by
        simp [findallWords, h]]
      by_cases hcs : cs = []
      · subst hcs
        simp [findallWords, maximalRuns, h]
      · rw [findallWords_acc cs [c] (List.cons_ne_nil c []),
          findallWords_eq_maximalRuns (cs.dropWhile isWordChar)]
        rw [show maximalRuns (c :: cs)
            = (c :: cs.takeWhile isWordChar)
                :: maximalRuns (cs.dropWhile isWordChar) from by
          simp [maximalRuns, h]]
        simp
    · rw [show findallWords (c :: cs) [] = findallWords cs [] from by
        simp [findallWords, h]]
      rw [findallWords_eq_maximalRuns cs]
      rw [show maximalRuns (c :: cs) = maximalRuns cs from by
        simp [maximalRuns, h]]
termination_by l => l.length
decreasing_by
  · have := (cs.dropWhile_sublist isWordChar).length_le
    simp only [List.length_cons]
    omega
  · simp

theorem toLower_of_not_upper (c : Char) (h : ¬(65 ≤ c.toNat ∧ c.toNat ≤ 90)) :
    c.toLower = c := by
  rw [Char.toLower]
  rw [if_neg]
  intro hc
  exact h ⟨hc.1, hc.2⟩

theorem toNat_toLower_of_upper (c : Char) (h : 65 ≤ c.toNat ∧ c.toNat ≤ 90) :
    c.toLower.toNat = c.toNat + 32 := by
  rw [Char.toLower, if_pos ⟨h.1, h.2⟩]
  have hv : (c.toNat + 32).isValidChar := Or.inl (by omega)
  rw [Char.ofNat, dif_pos hv]
  simp [Char.ofNatAux, Char.toNat, UInt32.toNat]

theorem isWordChar_toLower (c : Char) : isWordChar c.toLower = isWordChar c := by
  by_cases h : 65 ≤ c.toNat ∧ c.toNat ≤ 90
  · rw [isWordChar, isWordChar, toNat_toLower_of_upper c h, decide_eq_decide]
    omega
  · rw [toLower_of_not_upper c h]

theorem maximalRuns_map_toLower : (l : List Char) →
    maximalRuns (l.map Char.toLower) = (maximalRuns l).map (List.map Char.toLower)
  | [] => by simp [maximalRuns]
  | c :: cs => by
    have hfun : (isWordChar ∘ Char.toLower) = isWordChar :=
      funext isWordChar_toLower
    by_cases h : isWordChar c
    · have h' : isWordChar c.toLower = true := by rw [isWordChar_toLower, h]
      rw [List.map_cons]
      rw [show maximalRuns (c.toLower :: (cs.map Char.toLower))
          = (c.toLower :: (cs.map Char.toLower).takeWhile isWordChar)
              :: maximalRuns ((cs.map Char.toLower).dropWhile isWordChar) from by
        simp [maximalRuns, h']]
      rw [show maximalRuns (c :: cs)
          = (c :: cs.takeWhile isWordChar)
              :: maximalRuns (cs.dropWhile isWordChar) from by
        simp [maximalRuns, h]]
      rw [List.takeWhile_map, List.dropWhile_map, hfun]
      rw [maximalRuns_map_toLower (cs.dropWhile isWordChar)]
      simp
    · have h' : isWordChar c.toLower = false := by
        rw [isWordChar_toLower]
        exact Bool.eq_false_iff.mpr h
      rw [List.map_cons]
      rw [show maximalRuns (c.toLower :: (cs.map Char.toLower))
          = maximalRuns (cs.map Char.toLower) from by simp [maximalRuns, h']]
      rw [show maximalRuns (c :: cs) = maximalRuns cs from by
        simp [maximalRuns, h]]
      exact maximalRuns_map_toLower cs
termination_by l => l.length
decreasing_by
  · have := (cs.dropWhile_sublist isWordChar).length_le
    simp only [List.length_cons]
    omega
  · simp

theorem isWordChar_eq_false_of_isWhitespace (c : Char) (h : c.isWhitespace) :
    isWordChar c = false := by
  rw [Char.isWhitespace] at h
  simp only [Bool.or_eq_true, decide_eq_true_eq] at h
  have hc : c = ' ' ∨ c = '\t' ∨ c = '\r' ∨ c = '\n' := by tauto
  rcases hc with h | h | h | h <;> subst h <;> decide

theorem maximalRuns_eq_nil (l : List Char) (h : ∀ c ∈ l, isWordChar c = false) :
    maximalRuns l = [] := by
  induction l with
  | nil => simp [maximalRuns]
  | cons c cs ih =>
    have hc : isWordChar c = false := h c (List.mem_cons_self c cs)
    rw [show maximalRuns (c :: cs) = maximalRuns cs from by
      simp [maximalRuns, hc]]
    exact ih (fun x hx => h x (List.mem_cons_of_mem c hx))

/-! ## Claim theorems -/

/-- Claim C1 (evidence of the code bug): evaluating a query does NOT leave
the inverted index unchanged.  The searches look terms up with the
defaultdict bracket operator, which inserts every missing query term with an
empty posting set: at the index mapping "cat" to the posting set containing
"d1.txt", searching for the unindexed term "dog" grows the index by the
entry ("dog", empty set) under each of the three operators. -/
theorem query_with_unindexed_term_mutates_index :
    (boolean_and_search "dog" [("cat", {"d1.txt"})]).2
        = [("cat", {"d1.txt"}), ("dog", ∅)]
    ∧ (boolean_and_search "dog" [("cat", {"d1.txt"})]).2 ≠ [("cat", {"d1.txt"})]
    ∧ (boolean_or_search "dog" [("cat", {"d1.txt"})]).2 ≠ [("cat", {"d1.txt"})]
    ∧ (boolean_not_search "dog" [("cat", {"d1.txt"})] {"d1.txt"}).2
        ≠ [("cat", {"d1.txt"})] := by
  refine ⟨?_, ?_, ?_, ?_⟩ <;> decide

/-- Claim C2 counterexample: a failed load returns exactly the same value as
a successful load of zero documents, so the caller receives no error value
distinguishable from the valid empty outcome. -/
theorem load_failure_eq_empty_success :
    load_documents_from_folder (Except.error "folder unreadable")
      = load_documents_from_folder (Except.ok []) := rfl

/-- Claim C2 (amended): when the source cannot be enumerated or read, the
loader displays an error dialog and returns the empty mapping — the same
value a successful zero-document load returns, so the failure is not
distinguishable by the returned value. -/
theorem load_error_returns_empty_map (msg : String) :
    load_documents_from_folder (Except.error msg) = []
    ∧ load_documents_from_folder (Except.error msg)
        = load_documents_from_folder (Except.ok []) := ⟨rfl, rfl⟩

/-- Claim C3 counterexample: for the stopword-only query "the" (which
tokenizes to zero terms) and the non-empty universe containing "d1.txt", the
NOT search returns the empty set while universe − OR returns the universe —
the complement law fails for queries with empty tokenization. -/
theorem not_complement_fails_on_stopword_query :
    ¬((boolean_not_search "the" [] {"d1.txt"}).1
        = {"d1.txt"} \ (boolean_or_search "the" []).1) := by decide

/-- Claim C3 (amended): for every query whose tokenization is non-empty,
every index and every universe, the NOT-search result equals the universe
minus the OR-search result on the same query. -/
theorem not_search_eq_universe_sdiff_or_search (q : String) (d : Index)
    (u : Finset Doc) (h : preprocess q ≠ []) :
    (boolean_not_search q d u).1 = u \ (boolean_or_search q d).1 := by
  cases hq : preprocess q with
  | nil => exact absurd hq h
  | cons t ts =>
    rw [boolean_not_search_fst q d u t ts hq, boolean_or_search_fst q d t ts hq]
    have key := foldl_sdiff_eq_sdiff_foldl_union (postingSet d) (t :: ts) u ∅
    rw [Finset.sdiff_empty] at key
    exact key

theorem not_search_eq_universe_sdiff_or_search_witness :
    (boolean_not_search "cat" [("cat", ({"d1.txt"} : Finset Doc))]
        {"d1.txt", "d2.txt"}).1
      = {"d1.txt", "d2.txt"} \
        (boolean_or_search "cat" [("cat", {"d1.txt"})]).1 :=
  not_search_eq_universe_sdiff_or_search "cat" [("cat", {"d1.txt"})]
    {"d1.txt", "d2.txt"} (by decide)

/-- Claim C4: for a document mapping (no duplicate ids), a document id D is
in the posting set of term T of the built index exactly when T occurs in the
tokenized content of D; and building from the empty mapping yields the empty
index. -/
theorem create_inverted_index_correct (docs : List (Doc × String))
    (hnd : (docs.map Prod.fst).Nodup) (D : Doc) (T : String) :
    (D ∈ postingSet (create_inverted_index docs) T ↔
      ∃ c, dictFind docs D = some c ∧ T ∈ preprocess c)
    ∧ create_inverted_index [] = ([] : Index) := by
  constructor
  · unfold create_inverted_index
    rw [mem_postingSet_docsFoldl docs D T []]
    have hps : D ∈ postingSet ([] : Index) T ↔ False := by
      simp [postingSet, dictFind]
    rw [hps, or_false]
    constructor
    · rintro ⟨c, hc, hT⟩
      exact ⟨c, (dictFind_eq_some_iff docs hnd D c).mpr hc, hT⟩
    · rintro ⟨c, hc, hT⟩
      exact ⟨c, (dictFind_eq_some_iff docs hnd D c).mp hc, hT⟩
  · rfl

theorem create_inverted_index_correct_witness :
    "d1.txt" ∈ postingSet
      (create_inverted_index [("d1.txt", "the cat sat")]) "cat" :=
  ((create_inverted_index_correct [("d1.txt", "the cat sat")] (by decide)
      "d1.txt" "cat").1).mpr ⟨"the cat sat", by decide, by decide⟩

/-- Claim C5: for a query with non-empty tokenization, the AND search is the
fold of intersections of the terms' posting sets starting from the first
term's posting set; and an AND query containing a term absent from the index
returns the empty set. -/
theorem and_search_correct (q : String) (d : Index) (t : String)
    (ts : List String) (h : preprocess q = t :: ts) :
    (boolean_and_search q d).1
        = ts.foldl (fun r term => r ∩ postingSet d term) (postingSet d t)
    ∧ ∀ term ∈ preprocess q, dictFind d term = none →
        (boolean_and_search q d).1 = ∅ := by
  have hfst := boolean_and_search_fst q d t ts h
  refine ⟨hfst, ?_⟩
  intro term hterm hnone
  have hps : postingSet d term = ∅ := by rw [postingSet, hnone]; rfl
  rw [hfst]
  rw [h] at hterm
  rcases List.mem_cons.mp hterm with heq | hmem
  · subst heq
    exact Finset.subset_empty.mp
      (hps ▸ foldl_inter_subset (postingSet d) ts (postingSet d term))
  · exact Finset.subset_empty.mp
      (hps ▸ foldl_inter_subset_of_mem (postingSet d) ts term hmem
        (postingSet d t))

theorem and_search_correct_witness :
    (boolean_and_search "cat dog" [("cat", ({"d1.txt"} : Finset Doc))]).1
      = ∅ :=
  (and_search_correct "cat dog" [("cat", {"d1.txt"})] "cat" ["dog"]
      (by decide)).2 "dog" (by decide) (by decide)

/-- Claim C6: `preprocess` extracts exactly the maximal word-character runs
of its input in input order, lowercases each one, and drops the canonical
stopwords (duplicates are preserved, since this is an equality of token
sequences); empty or whitespace-only input yields the empty sequence, and
the function is total, so no input is an error. -/
theorem preprocess_correct (s : String) :
    preprocess s
        = ((maximalRuns s.data).map
            (fun r => String.mk (r.map Char.toLower))).filter
          (fun token => !(stopwords.contains token))
    ∧ ((∀ c ∈ s.data, c.isWhitespace) → preprocess s = []) := by
  have h1 : preprocess s
      = ((maximalRuns s.data).map
          (fun r => String.mk (r.map Char.toLower))).filter
        (fun token => !(stopwords.contains token)) := by
    rw [preprocess, findallWords_eq_maximalRuns, maximalRuns_map_toLower,
      List.map_map]
    rfl
  refine ⟨h1, fun hw => ?_⟩
  rw [h1, maximalRuns_eq_nil s.data
    (fun c hc => isWordChar_eq_false_of_isWhitespace c (hw c hc))]
  rfl

theorem preprocess_correct_witness : preprocess " \t " = [] :=
  (preprocess_correct " \t ").2 (by decide)

/-- Claim C7: a query that tokenizes to zero terms returns the empty set for
AND, OR and NOT, for every index and every universe. -/
theorem empty_query_all_empty (q : String) (d : Index) (u : Finset Doc)
    (h : preprocess q = []) :
    (boolean_and_search q d).1 = ∅ ∧ (boolean_or_search q d).1 = ∅
    ∧ (boolean_not_search q d u).1 = ∅ := by
  unfold boolean_and_search boolean_or_search boolean_not_search
  rw [h]
  exact ⟨rfl, rfl, rfl⟩

theorem empty_query_all_empty_witness :
    (boolean_not_search "the" [("cat", ({"d1.txt"} : Finset Doc))]
        {"d1.txt"}).1 = ∅ :=
  (empty_query_all_empty "the" [("cat", {"d1.txt"})] {"d1.txt"}
      (by decide)).2.2

/-- Claim C8: for a query tokenizing to the pair of terms t1, t2, the AND
result is a subset of the OR result on the same query and index. -/
theorem and_subset_or (q : String) (d : Index) (t1 t2 : String)
    (h : preprocess q = [t1, t2]) :
    (boolean_and_search q d).1 ⊆ (boolean_or_search q d).1 := by
  rw [boolean_and_search_fst q d t1 [t2] h,
    boolean_or_search_fst q d t1 [t2] h]
  simp only [List.foldl_cons, List.foldl_nil]
  intro x hx
  simp only [Finset.mem_inter] at hx
  simp only [Finset.mem_union]
  exact Or.inr hx.2

theorem and_subset_or_witness :
    (boolean_and_search "cat dog" [("cat", ({"d1.txt"} : Finset Doc))]).1
      ⊆ (boolean_or_search "cat dog" [("cat", {"d1.txt"})]).1 :=
  and_subset_or "cat dog" [("cat", {"d1.txt"})] "cat" "dog" (by decide)

/-- Claim C9: the NOT result is always a subset of the universe `all_docs`.
The code takes a copy of `all_docs` and only applies the non-mutating set
difference to it, so the universe passed in is read, never written; in the
embedding it is a value consumed by the fold. -/
theorem not_search_subset_all_docs (q : String) (d : Index)
    (all_docs : Finset Doc) :
    (boolean_not_search q d all_docs).1 ⊆ all_docs := by
  cases hq : preprocess q with
  | nil =>
    unfold boolean_not_search
    rw [hq]
    exact Finset.empty_subset all_docs
  | cons t ts =>
    rw [boolean_not_search_fst q d all_docs t ts hq]
    exact foldl_sdiff_subset (postingSet d) (t :: ts) all_docs

/-- Claim C10: on a query that tokenizes to exactly one term, the AND search
and the OR search return the same result set. -/
theorem single_term_and_eq_or (q : String) (d : Index) (t : String)
    (h : preprocess q = [t]) :
    (boolean_and_search q d).1 = (boolean_or_search q d).1 := by
  rw [boolean_and_search_fst q d t [] h, boolean_or_search_fst q d t [] h]
  simp

theorem single_term_and_eq_or_witness :
    (boolean_and_search "cat" [("cat", ({"d1.txt"} : Finset Doc))]).1
      = (boolean_or_search "cat" [("cat", {"d1.txt"})]).1 :=
  single_term_and_eq_or "cat" [("cat", {"d1.txt"})] "cat" (by decide)

end BoolPySearch
